import Mathlib

/-!
# Verification of the wagering-requirement simulator (src/app.py)

Shallow embedding of `wagering_sim_with_history_bal` from `src/app.py` over
exact rational arithmetic. Currency amounts are rationals; Python's
`round(x, 2)` is round-half-to-even on cents; Python's float `%` is the
exact real remainder `a - b * ⌊a / b⌋`. The numpy global random generator
is modelled as a state `NpRandom` holding the stream of outcome samples it
will produce and the current position in it; `np.random.seed s` replaces
the state by `⟨gen s, 0⟩`, where `gen` abstracts the PRNG (seed to sample
stream), and each `np.random.choice` call reads the stream at the current
position and advances it. The while loop carries an explicit fuel bound;
`none` means the fuel was exhausted before the loop exited.
-/

namespace WagerSim

/-- One row of the `history` record built by the simulation: the parallel
lists `spins`, `balance`, `total_bet` of src/app.py line 28. -/
structure StepRec where
  spins : ℕ
  balance : ℚ
  total_bet : ℚ
deriving DecidableEq

/-- Python `a % b` on reals (exact): `a - b * ⌊a / b⌋`. For `b > 0` this is
the value in `[0, b)` congruent to `a`. -/
def pymod (a b : ℚ) : ℚ := a - b * ⌊a / b⌋

/-- Python 3 `round` to the nearest integer, ties to even. -/
def roundHalfEven (q : ℚ) : ℤ :=
  if q - ⌊q⌋ < 1/2 then ⌊q⌋
  else if 1/2 < q - ⌊q⌋ then ⌊q⌋ + 1
  else if ⌊q⌋ % 2 = 0 then ⌊q⌋ else ⌊q⌋ + 1

/-- Python `round(x, 2)`: round to a whole number of cents. -/
def round2 (q : ℚ) : ℚ := (roundHalfEven (q * 100) : ℚ) / 100

/-- The rational `q` is a whole number of cents (a 2-decimal currency
amount). -/
def isCents (q : ℚ) : Prop := ∃ n : ℤ, q = (n : ℚ) / 100

/-- Model of numpy's process-wide random generator: the stream of outcome
samples it will produce from now on (indexed from `pos`), never changing
except when reseeded. -/
structure NpRandom where
  stream : ℕ → ℚ
  pos : ℕ

/-- The support of `np.random.choice([0, 1, 3, 11], p=[0.55, 0.234, 0.21,
0.006])` (src/app.py line 43). -/
def outcomeSupport : List ℚ := [0, 1, 3, 11]

/-- The `while bal >= 0.05` loop of `wagering_sim_with_history_bal`
(src/app.py lines 30–55). Arguments mirror the Python locals: `bal`,
`total_bet`, `no_bets`, the accumulated `hist`, plus the sample stream with
its current position `pos` and a fuel bound on the number of iterations.
Returns the final history (or `none` on fuel exhaustion) and the final
stream position. -/
def simLoop (k x0 av_stake : ℚ) (stream : ℕ → ℚ) (fuel : ℕ) (bal total_bet : ℚ)
    (no_bets pos : ℕ) (hist : List StepRec) : Option (List StepRec) × ℕ :=
  if bal < 0.05 then (some hist, pos)
  else
    match fuel with
    | 0 => (none, pos)
    | fuel' + 1 =>
      let stake := min av_stake (bal - pymod bal 0.05)
      let total_bet' := total_bet + stake
      if k * x0 ≤ total_bet' then
        (some (hist ++ [⟨no_bets + 1, bal, total_bet'⟩]), pos)
      else
        let xt := stream pos
        let bal' := round2 (bal + stake * (xt - 1))
        let hist' := hist ++ [⟨no_bets + 1, bal', total_bet'⟩]
        if bal' ≤ 0 then (some hist', pos + 1)
        else simLoop k x0 av_stake stream fuel' bal' total_bet' (no_bets + 1) (pos + 1) hist'

/-- `wagering_sim_with_history_bal(start_bal, WR, av_stake, seed)` from
src/app.py lines 15–57. `gen s` is the sample stream numpy produces after
`np.random.seed(s)`; `g` is the incoming process-wide generator state. The
result pairs the recorded history with the process-wide generator state
after the call (the call mutates it: seeding replaces it, sampling advances
it). -/
def wagering_sim_with_history_bal (gen : ℤ → ℕ → ℚ) (g : NpRandom)
    (start_bal WR av_stake : ℚ) (seed : Option ℤ) (fuel : ℕ) :
    Option (List StepRec) × NpRandom :=
  let r : NpRandom :=
    match seed with
    | some s => ⟨gen s, 0⟩
    | none => g
  let out := simLoop WR start_bal av_stake r.stream fuel start_bal 0 0 r.pos
    [⟨0, round2 start_bal, 0⟩]
  (out.1, ⟨r.stream, out.2⟩)

/-- Valid configuration per the spec's preconditions and data model:
positive 2-decimal starting balance, multiplier at least 1, positive
average stake. -/
def ValidConfig (start_bal WR av_stake : ℚ) : Prop :=
  0 < start_bal ∧ isCents start_bal ∧ 1 ≤ WR ∧ 0 < av_stake

/-- The iteration bound of spec §4.1 failure semantics:
`ceil(WR × startingBalance / min-possible-stake)` plus a small constant.
The minimum possible stake of a valid run is `min av_stake 0.05`. -/
def maxIters (start_bal WR av_stake : ℚ) : ℕ :=
  (⌈WR * start_bal / min av_stake 0.05⌉).toNat + 2

/-! ## Basic arithmetic lemmas -/

theorem pymod_nonneg {a b : ℚ} (hb : 0 < b) : 0 ≤ pymod a b := by
  have h1 : (⌊a / b⌋ : ℚ) ≤ a / b := Int.floor_le _
  have h2 : b * (⌊a / b⌋ : ℚ) ≤ b * (a / b) :=
    mul_le_mul_of_nonneg_left h1 hb.le
  have h3 : b * (a / b) = a := mul_div_cancel₀ a hb.ne'
  simp only [pymod, sub_nonneg]
  calc b * (⌊a / b⌋ : ℚ) ≤ b * (a / b) := h2
    _ = a := h3

theorem sub_pymod_eq {a b : ℚ} : a - pymod a b = b * ⌊a / b⌋ := by
  simp [pymod]

theorem le_sub_pymod {a b : ℚ} (hb : 0 < b) (hab : b ≤ a) :
    b ≤ a - pymod a b := by
  rw [sub_pymod_eq]
  have h1 : (1 : ℚ) ≤ a / b := (one_le_div hb).mpr hab
  have h2 : (1 : ℤ) ≤ ⌊a / b⌋ := Int.le_floor.mpr (by exact_mod_cast h1)
  calc b = b * 1 := (mul_one b).symm
    _ ≤ b * (⌊a / b⌋ : ℚ) := by
        apply mul_le_mul_of_nonneg_left _ hb.le
        exact_mod_cast h2

theorem pymod_eq_zero_of_eq_mul {a b : ℚ} (m : ℤ) (hb : b ≠ 0)
    (h : a = b * (m : ℚ)) : pymod a b = 0 := by
  have hdiv : a / b = (m : ℚ) := by
    rw [h, mul_comm, mul_div_assoc, div_self hb, mul_one]
  rw [pymod, hdiv, Int.floor_intCast, h, sub_self]

theorem roundHalfEven_intCast (n : ℤ) : roundHalfEven (n : ℚ) = n := by
  simp [roundHalfEven, Int.floor_intCast]

theorem round2_of_isCents {q : ℚ} (h : isCents q) : round2 q = q := by
  obtain ⟨n, rfl⟩ := h
  have h100 : ((n : ℚ) / 100) * 100 = (n : ℚ) := by
    field_simp
  rw [round2, h100, roundHalfEven_intCast]

theorem isCents_round2 (q : ℚ) : isCents (round2 q) :=
  ⟨roundHalfEven (q * 100), rfl⟩

theorem roundHalfEven_nonneg {q : ℚ} (h : 0 ≤ q) : 0 ≤ roundHalfEven q := by
  have hfl : (0 : ℤ) ≤ ⌊q⌋ := Int.floor_nonneg.mpr h
  unfold roundHalfEven
  split
  · exact hfl
  · split
    · omega
    · split
      · exact hfl
      · omega

theorem round2_nonneg {q : ℚ} (h : 0 ≤ q) : 0 ≤ round2 q := by
  have : (0 : ℚ) ≤ (roundHalfEven (q * 100) : ℚ) := by
    exact_mod_cast roundHalfEven_nonneg (by positivity)
  unfold round2
  positivity

theorem round2_one : round2 1 = 1 :=
  round2_of_isCents ⟨100, by norm_num⟩

theorem round2_zero : round2 0 = 0 :=
  round2_of_isCents ⟨0, by norm_num⟩

theorem pymod_one_gran : pymod 1 0.05 = 0 :=
  pymod_eq_zero_of_eq_mul 20 (by norm_num) (by norm_num)

/-! ## Unfolding lemmas for the loop -/

theorem simLoop_exit {bal : ℚ} (k x0 av_stake : ℚ) (stream : ℕ → ℚ)
    (fuel : ℕ) (total_bet : ℚ) (no_bets pos : ℕ) (hist : List StepRec)
    (hbal : bal < 0.05) :
    simLoop k x0 av_stake stream fuel bal total_bet no_bets pos hist =
      (some hist, pos) := by
  rw [simLoop.eq_def, if_pos hbal]

theorem simLoop_ruleA {k x0 av_stake bal total_bet : ℚ} (stream : ℕ → ℚ)
    (fuel : ℕ) (no_bets pos : ℕ) (hist : List StepRec)
    (hbal : ¬ bal < 0.05)
    (hA : k * x0 ≤ total_bet + min av_stake (bal - pymod bal 0.05)) :
    simLoop k x0 av_stake stream (fuel + 1) bal total_bet no_bets pos hist =
      (some (hist ++
        [⟨no_bets + 1, bal, total_bet + min av_stake (bal - pymod bal 0.05)⟩]),
       pos) := by
  rw [simLoop.eq_def, if_neg hbal]
  exact if_pos hA

theorem simLoop_sample {k x0 av_stake bal total_bet : ℚ} (stream : ℕ → ℚ)
    (fuel : ℕ) (no_bets pos : ℕ) (hist : List StepRec)
    (hbal : ¬ bal < 0.05)
    (hA : ¬ k * x0 ≤ total_bet + min av_stake (bal - pymod bal 0.05)) :
    simLoop k x0 av_stake stream (fuel + 1) bal total_bet no_bets pos hist =
      (if round2 (bal + min av_stake (bal - pymod bal 0.05) * (stream pos - 1)) ≤ 0
       then (some (hist ++
          [⟨no_bets + 1,
            round2 (bal + min av_stake (bal - pymod bal 0.05) * (stream pos - 1)),
            total_bet + min av_stake (bal - pymod bal 0.05)⟩]), pos + 1)
       else simLoop k x0 av_stake stream fuel
          (round2 (bal + min av_stake (bal - pymod bal 0.05) * (stream pos - 1)))
          (total_bet + min av_stake (bal - pymod bal 0.05)) (no_bets + 1) (pos + 1)
          (hist ++
            [⟨no_bets + 1,
              round2 (bal + min av_stake (bal - pymod bal 0.05) * (stream pos - 1)),
              total_bet + min av_stake (bal - pymod bal 0.05)⟩])) := by
  rw [simLoop.eq_def, if_neg hbal]
  exact if_neg hA

/-- Helper: the whole loop for the configuration `(1, 1, 1)` starting from
the initial state: stopping rule A fires on the very first stake. -/
theorem simLoop_unit_run (st : ℕ → ℚ) (p fuel : ℕ) :
    simLoop 1 1 1 st (fuel + 1) 1 0 0 p [⟨0, round2 1, 0⟩]
      = (some [⟨0, 1, 0⟩, ⟨1, 1, 1⟩], p) := by
  rw [simLoop_ruleA st fuel 0 p _ (by norm_num)
    (by rw [pymod_one_gran]; norm_num)]
  rw [round2_one, pymod_one_gran]
  norm_num

/-! ## Stake bounds -/

theorem stake_pos {av_stake bal : ℚ} (hav : 0 < av_stake)
    (hbal : 0.05 ≤ bal) : 0 < min av_stake (bal - pymod bal 0.05) :=
  lt_min hav (lt_of_lt_of_le (by norm_num) (le_sub_pymod (by norm_num) hbal))

theorem min_stake_le_stake {av_stake bal : ℚ} (hbal : 0.05 ≤ bal) :
    min av_stake 0.05 ≤ min av_stake (bal - pymod bal 0.05) :=
  min_le_min (le_refl av_stake) (le_sub_pymod (by norm_num) hbal)

theorem stake_le_bal {av_stake bal : ℚ} :
    min av_stake (bal - pymod bal 0.05) ≤ bal := by
  have h := @pymod_nonneg bal 0.05 (by norm_num)
  calc min av_stake (bal - pymod bal 0.05) ≤ bal - pymod bal 0.05 :=
        min_le_right _ _
    _ ≤ bal := by linarith

/-! ## The loop only appends to the history -/

theorem simLoop_append (k x0 av_stake : ℚ) (stream : ℕ → ℚ) :
    ∀ (fuel : ℕ) (bal total_bet : ℚ) (no_bets pos : ℕ)
      (hist l : List StepRec) (pos' : ℕ),
      simLoop k x0 av_stake stream fuel bal total_bet no_bets pos hist
        = (some l, pos') →
      ∃ t, l = hist ++ t := by
  intro fuel
  induction fuel with
  | zero =>
    intro bal total_bet no_bets pos hist l pos' h
    by_cases hb : bal < 0.05
    · rw [simLoop_exit _ _ _ _ _ _ _ _ _ hb] at h
      have h1 := congrArg Prod.fst h
      exact ⟨[], by simpa using (Option.some.inj h1).symm⟩
    · rw [simLoop.eq_def, if_neg hb] at h
      simp at h
  | succ fuel ih =>
    intro bal total_bet no_bets pos hist l pos' h
    by_cases hb : bal < 0.05
    · rw [simLoop_exit _ _ _ _ _ _ _ _ _ hb] at h
      have h1 := congrArg Prod.fst h
      exact ⟨[], by simpa using (Option.some.inj h1).symm⟩
    · by_cases hA : k * x0 ≤ total_bet + min av_stake (bal - pymod bal 0.05)
      · rw [simLoop_ruleA _ _ _ _ _ hb hA] at h
        have h1 := congrArg Prod.fst h
        exact ⟨_, (Option.some.inj h1).symm⟩
      · rw [simLoop_sample _ _ _ _ _ hb hA] at h
        by_cases hbust :
            round2 (bal + min av_stake (bal - pymod bal 0.05) * (stream pos - 1)) ≤ 0
        · rw [if_pos hbust] at h
          have h1 := congrArg Prod.fst h
          exact ⟨_, (Option.some.inj h1).symm⟩
        · rw [if_neg hbust] at h
          obtain ⟨t, ht⟩ := ih _ _ _ _ _ _ _ h
          exact ⟨_ , by rw [ht, List.append_assoc]⟩

/-! ## Strict growth of total_bet along the history -/

theorem chain_concat_lt (hist : List StepRec) (r : StepRec) (total_bet : ℚ)
    (hch : List.Chain' (fun a b => a.total_bet < b.total_bet) hist)
    (hlast : ∀ x ∈ hist.getLast?, x.total_bet ≤ total_bet)
    (hr : total_bet < r.total_bet) :
    List.Chain' (fun a b => a.total_bet < b.total_bet) (hist ++ [r]) :=
  List.chain'_append.2 ⟨hch, List.chain'_singleton r, fun x hx y hy => by
    have hyr : r = y := by simpa using hy
    subst hyr
    exact lt_of_le_of_lt (hlast x hx) hr⟩

/-- Helper: extract equality of the histories from equal loop results. -/
theorem pair_some_inj {α β : Type} {a b : α} {x y : β}
    (h : ((some a : Option α), x) = (some b, y)) : a = b := by
  have := congrArg Prod.fst h
  simpa using this

theorem simLoop_total_bet_chain (k x0 av_stake : ℚ) (stream : ℕ → ℚ)
    (hav : 0 < av_stake) :
    ∀ (fuel : ℕ) (bal total_bet : ℚ) (no_bets pos : ℕ)
      (hist l : List StepRec) (pos' : ℕ),
      simLoop k x0 av_stake stream fuel bal total_bet no_bets pos hist
        = (some l, pos') →
      List.Chain' (fun a b => a.total_bet < b.total_bet) hist →
      (∀ x ∈ hist.getLast?, x.total_bet ≤ total_bet) →
      List.Chain' (fun a b => a.total_bet < b.total_bet) l := by
  intro fuel
  induction fuel with
  | zero =>
    intro bal total_bet no_bets pos hist l pos' h hch hlast
    by_cases hb : bal < 0.05
    · rw [simLoop_exit _ _ _ _ _ _ _ _ _ hb] at h
      exact (pair_some_inj h) ▸ hch
    · rw [simLoop.eq_def, if_neg hb] at h
      simp at h
  | succ fuel ih =>
    intro bal total_bet no_bets pos hist l pos' h hch hlast
    by_cases hb : bal < 0.05
    · rw [simLoop_exit _ _ _ _ _ _ _ _ _ hb] at h
      exact (pair_some_inj h) ▸ hch
    · have hstake : 0 < min av_stake (bal - pymod bal 0.05) :=
        stake_pos hav (not_lt.mp hb)
      have hgrow : total_bet < total_bet + min av_stake (bal - pymod bal 0.05) := by
        linarith
      by_cases hA : k * x0 ≤ total_bet + min av_stake (bal - pymod bal 0.05)
      · rw [simLoop_ruleA _ _ _ _ _ hb hA] at h
        rw [← pair_some_inj h]
        exact chain_concat_lt hist _ total_bet hch hlast hgrow
      · rw [simLoop_sample _ _ _ _ _ hb hA] at h
        by_cases hbust :
            round2 (bal + min av_stake (bal - pymod bal 0.05) * (stream pos - 1)) ≤ 0
        · rw [if_pos hbust] at h
          rw [← pair_some_inj h]
          exact chain_concat_lt hist _ total_bet hch hlast hgrow
        · rw [if_neg hbust] at h
          refine ih _ _ _ _ _ _ _ h
            (chain_concat_lt hist _ total_bet hch hlast hgrow) ?_
          intro x hx
          rw [List.getLast?_concat] at hx
          have hxr := Option.some.inj (by simpa using hx)
          rw [← hxr]

/-- Helper: a pair whose first component is known. -/
theorem fst_eq_pair {α β : Type} (p : α × β) (a : α) (h : p.1 = a) :
    p = (a, p.2) := by
  cases p
  simpa using h

/-- Helper: a predicate that holds on a history and on an appended record
holds on the extended history. -/
theorem mem_concat_prop {P : StepRec → Prop} {hist : List StepRec}
    {r : StepRec} (hh : ∀ x ∈ hist, P x) (hr : P r) :
    ∀ x ∈ hist ++ [r], P x := by
  intro x hx
  rcases List.mem_append.1 hx with h | h
  · exact hh x h
  · have hxr : x = r := by simpa using h
    rw [hxr]
    exact hr

/-! ## Claim theorems -/

/-- C3: for the config startingBalance = 1.00, wageringMultiplier = 1,
averageStake = 1.00 (target reachable in one stake), the run terminates at
step index 1 via stopping rule A, with the step-1 balance equal to the
step-0 balance, and no outcome is sampled (the result is the same for every
sample stream, and the stream position is not advanced). -/
theorem claim_C3 (gen : ℤ → ℕ → ℚ) (g : NpRandom) (seed : Option ℤ)
    (fuel : ℕ) :
    (wagering_sim_with_history_bal gen g 1 1 1 seed (fuel + 1)).1
        = some [⟨0, 1, 0⟩, ⟨1, 1, 1⟩]
      ∧ (wagering_sim_with_history_bal gen g 1 1 1 seed (fuel + 1)).2.pos
        = (match seed with | some _ => 0 | none => g.pos) := by
  cases seed with
  | none =>
    simp only [wagering_sim_with_history_bal, simLoop_unit_run]
    exact ⟨trivial, trivial⟩
  | some s =>
    simp only [wagering_sim_with_history_bal, simLoop_unit_run]
    exact ⟨trivial, trivial⟩

/-- C6: two calls to the simulation with identical config and identical
seed produce identical step sequences, whatever the ambient process-wide
generator states before each call. -/
theorem claim_C6 (gen : ℤ → ℕ → ℚ) (g g' : NpRandom) (s : ℤ)
    (start_bal WR av_stake : ℚ) (fuel : ℕ) :
    (wagering_sim_with_history_bal gen g start_bal WR av_stake (some s) fuel).1
      = (wagering_sim_with_history_bal gen g' start_bal WR av_stake (some s) fuel).1 :=
  rfl

/-- C8 is false as stated: a seeded run mutates the process-wide generator
state. Concretely, with PRNG model `gen = fun _ _ => 0` and prior global
state whose stream is constantly 1, running config (1, 1, 1) with seed 0
leaves a global stream that differs from the prior one at index 0. -/
theorem claim_C8_counterexample :
    (wagering_sim_with_history_bal (fun _ _ => 0) ⟨fun _ => 1, 0⟩
        1 1 1 (some 0) 1).2.stream 0
      ≠ (NpRandom.mk (fun _ => 1) 0).stream 0 := by
  simp only [wagering_sim_with_history_bal]
  norm_num

/-- C8 amended: when a seed is supplied, the call reseeds the process-wide
generator in place (`np.random.seed`), so after the call the global stream
is `gen seed` regardless of its previous value — the seeded generator is
not scoped to the run and subsequent unrelated runs are affected. -/
theorem claim_C8_amended_thm (gen : ℤ → ℕ → ℚ) (g : NpRandom) (s : ℤ)
    (start_bal WR av_stake : ℚ) (fuel : ℕ) :
    (wagering_sim_with_history_bal gen g start_bal WR av_stake
        (some s) fuel).2.stream = gen s :=
  rfl

/-- C2 is false as stated: the code performs no input validation. For the
invalid config startingBalance = 0, wageringMultiplier = 0, averageStake =
−0.05 the run does not fail: it returns a history consisting of
the initial record. -/
theorem claim_C2_counterexample :
    (wagering_sim_with_history_bal (fun _ _ => 0) ⟨fun _ => 0, 0⟩
        0 0 (-0.05) none 3).1
      = some [⟨0, 0, 0⟩] := by
  simp only [wagering_sim_with_history_bal]
  rw [simLoop_exit _ _ _ _ _ _ _ _ _ (by norm_num)]
  rw [round2_zero]

/-- C2 amended: the code performs no validation and has no
InvalidConfiguration error; a config violating the preconditions is
simulated anyway. In particular for every startingBalance ≤ 0 the run
returns successfully with the single initial record. -/
theorem claim_C2_amended_thm (start_bal : ℚ) (hx : start_bal ≤ 0)
    (WR av_stake : ℚ) (gen : ℤ → ℕ → ℚ) (g : NpRandom) (seed : Option ℤ)
    (fuel : ℕ) :
    (wagering_sim_with_history_bal gen g start_bal WR av_stake seed fuel).1
      = some [⟨0, round2 start_bal, 0⟩] := by
  have h : start_bal < 0.05 := lt_of_le_of_lt hx (by norm_num)
  cases seed with
  | none =>
    simp only [wagering_sim_with_history_bal]
    rw [simLoop_exit _ _ _ _ _ _ _ _ _ h]
  | some s =>
    simp only [wagering_sim_with_history_bal]
    rw [simLoop_exit _ _ _ _ _ _ _ _ _ h]

theorem claim_C2_witness :
    (0 : ℚ) ≤ 0 ∧
    (wagering_sim_with_history_bal (fun _ _ => 0) ⟨fun _ => 0, 0⟩
        0 0 (-0.05) (some 7) 5).1
      = some [⟨0, round2 0, 0⟩] :=
  ⟨le_refl 0,
   claim_C2_amended_thm 0 (le_refl 0) 0 (-0.05) (fun _ _ => 0) ⟨fun _ => 0, 0⟩
     (some 7) 5⟩

/-- C10: for every config with 0 < startingBalance < 0.05 and positive
averageStake, the run raises no error and returns exactly the single
initial record (stepIndex 0, balance = startingBalance rounded to 2
decimals, cumulativeStaked = 0); no stake is ever placed. -/
theorem claim_C10 (start_bal av_stake : ℚ) (h1 : 0 < start_bal)
    (h2 : start_bal < 0.05) (h3 : 0 < av_stake) (WR : ℚ)
    (gen : ℤ → ℕ → ℚ) (g : NpRandom) (seed : Option ℤ) (fuel : ℕ) :
    (wagering_sim_with_history_bal gen g start_bal WR av_stake seed fuel).1
      = some [⟨0, round2 start_bal, 0⟩] := by
  cases seed with
  | none =>
    simp only [wagering_sim_with_history_bal]
    rw [simLoop_exit _ _ _ _ _ _ _ _ _ h2]
  | some s =>
    simp only [wagering_sim_with_history_bal]
    rw [simLoop_exit _ _ _ _ _ _ _ _ _ h2]

theorem claim_C10_witness :
    (0 : ℚ) < 0.01 ∧ (0.01 : ℚ) < 0.05 ∧ (0 : ℚ) < 1 ∧
    (wagering_sim_with_history_bal (fun _ _ => 0) ⟨fun _ => 0, 0⟩
        0.01 3 1 none 7).1
      = some [⟨0, round2 0.01, 0⟩] :=
  ⟨by norm_num, by norm_num, by norm_num,
   claim_C10 0.01 1 (by norm_num) (by norm_num) (by norm_num) 3
     (fun _ _ => 0) ⟨fun _ => 0, 0⟩ none 7⟩

/-- C1: for every valid config, whenever the loop is at a state with
balance ≥ 0.05 and adding the current step's stake to cumulativeStaked
reaches wageringMultiplier × startingBalance, the loop appends exactly one
final StepRecord carrying the pre-outcome balance, the incremented step
index and the updated cumulativeStaked, samples no outcome (the stream
position is unchanged and the result does not depend on the stream), and
terminates the sequence there. -/
theorem claim_C1 (start_bal WR av_stake : ℚ)
    (hv : ValidConfig start_bal WR av_stake) (stream : ℕ → ℚ) (fuel : ℕ)
    (bal total_bet : ℚ) (no_bets pos : ℕ) (hist : List StepRec)
    (hbal : 0.05 ≤ bal)
    (hA : WR * start_bal ≤ total_bet + min av_stake (bal - pymod bal 0.05)) :
    simLoop WR start_bal av_stake stream (fuel + 1) bal total_bet no_bets pos hist
      = (some (hist ++ [⟨no_bets + 1, bal,
          total_bet + min av_stake (bal - pymod bal 0.05)⟩]), pos) :=
  simLoop_ruleA stream fuel no_bets pos hist (not_lt.mpr hbal) hA

/-- C5: for every valid config and every run that returns a history, the
cumulativeStaked (total_bet) values are non-decreasing from record to
record, and in fact strictly increase at every step (each step adds a
positive stake), which covers the claim's allowance at a WON-terminating
step. -/
theorem claim_C5 (start_bal WR av_stake : ℚ)
    (hv : ValidConfig start_bal WR av_stake) (gen : ℤ → ℕ → ℚ)
    (g : NpRandom) (seed : Option ℤ) (fuel : ℕ) (l : List StepRec)
    (h : (wagering_sim_with_history_bal gen g start_bal WR av_stake
        seed fuel).1 = some l) :
    List.Chain' (fun a b => a.total_bet ≤ b.total_bet) l ∧
    List.Chain' (fun a b => a.total_bet < b.total_bet) l := by
  have hav : 0 < av_stake := hv.2.2.2
  have hinit : ∀ x ∈ ([⟨0, round2 start_bal, 0⟩] : List StepRec).getLast?,
      x.total_bet ≤ (0 : ℚ) := by
    intro x hx
    have hxr : (⟨0, round2 start_bal, 0⟩ : StepRec) = x := by simpa using hx
    rw [← hxr]
  have hlt : List.Chain' (fun a b => a.total_bet < b.total_bet) l := by
    cases seed with
    | none =>
      have hsim : (simLoop WR start_bal av_stake g.stream fuel start_bal 0 0
          g.pos [⟨0, round2 start_bal, 0⟩]).1 = some l := h
      have hfull := fst_eq_pair _ _ hsim
      exact simLoop_total_bet_chain WR start_bal av_stake g.stream hav
        fuel start_bal 0 0 g.pos _ l _ hfull
        (List.chain'_singleton _) hinit
    | some s =>
      have hsim : (simLoop WR start_bal av_stake (gen s) fuel start_bal 0 0
          0 [⟨0, round2 start_bal, 0⟩]).1 = some l := h
      have hfull := fst_eq_pair _ _ hsim
      exact simLoop_total_bet_chain WR start_bal av_stake (gen s) hav
        fuel start_bal 0 0 0 _ l _ hfull
        (List.chain'_singleton _) hinit
  exact ⟨hlt.imp (fun _ _ hab => le_of_lt hab), hlt⟩

theorem claim_C5_witness :
    ValidConfig 1 1 1 ∧
    (List.Chain' (fun a b => a.total_bet ≤ b.total_bet)
        [(⟨0, 1, 0⟩ : StepRec), ⟨1, 1, 1⟩] ∧
     List.Chain' (fun a b => a.total_bet < b.total_bet)
        [(⟨0, 1, 0⟩ : StepRec), ⟨1, 1, 1⟩]) :=
  ⟨⟨by norm_num, ⟨100, by norm_num⟩, le_refl 1, by norm_num⟩,
   claim_C5 1 1 1 ⟨by norm_num, ⟨100, by norm_num⟩, le_refl 1, by norm_num⟩
     (fun _ _ => 0) ⟨fun _ => 0, 0⟩ none (0 + 1) [⟨0, 1, 0⟩, ⟨1, 1, 1⟩]
     (by simp only [wagering_sim_with_history_bal, simLoop_unit_run])⟩

/-- Helper for C7: if stopping rule A fires on the very first iteration
(balance still the raw starting balance, nothing staked yet), the starting
balance is forced to be a multiple of 0.05 and hence a whole number of
cents. -/
theorem isCents_of_first_ruleA {x0 k av_stake bal : ℚ} (hx : 0 < x0)
    (hk : 1 ≤ k) (hb : ¬ bal < 0.05) (hbx : bal = x0)
    (hA : k * x0 ≤ 0 + min av_stake (bal - pymod bal 0.05)) :
    isCents bal := by
  rw [← hbx] at hA hx
  have h1 : bal ≤ k * bal := le_mul_of_one_le_left hx.le hk
  have h2 : min av_stake (bal - pymod bal 0.05) ≤ bal - pymod bal 0.05 :=
    min_le_right _ _
  have h3 : 0 ≤ pymod bal 0.05 := pymod_nonneg (by norm_num)
  have hpz : pymod bal 0.05 = 0 := by linarith
  have hbal : bal = 0.05 * (⌊bal / 0.05⌋ : ℚ) := by
    have h4 := @sub_pymod_eq bal 0.05
    rw [hpz, sub_zero] at h4
    exact h4
  refine ⟨5 * ⌊bal / 0.05⌋, ?_⟩
  have h5 : ((5 * ⌊bal / 0.05⌋ : ℤ) : ℚ) / 100 = 0.05 * (⌊bal / 0.05⌋ : ℚ) := by
    push_cast
    ring
  rw [h5]
  exact hbal

theorem simLoop_balance_cents (k x0 av_stake : ℚ) (stream : ℕ → ℚ)
    (hx : 0 < x0) (hk : 1 ≤ k) :
    ∀ (fuel : ℕ) (bal total_bet : ℚ) (no_bets pos : ℕ)
      (hist l : List StepRec) (pos' : ℕ),
      simLoop k x0 av_stake stream fuel bal total_bet no_bets pos hist
        = (some l, pos') →
      (∀ r ∈ hist, isCents r.balance) →
      (isCents bal ∨ (bal = x0 ∧ total_bet = 0)) →
      ∀ r ∈ l, isCents r.balance := by
  intro fuel
  induction fuel with
  | zero =>
    intro bal total_bet no_bets pos hist l pos' h hhist _
    by_cases hb : bal < 0.05
    · rw [simLoop_exit _ _ _ _ _ _ _ _ _ hb] at h
      exact (pair_some_inj h) ▸ hhist
    · rw [simLoop.eq_def, if_neg hb] at h
      simp at h
  | succ fuel ih =>
    intro bal total_bet no_bets pos hist l pos' h hhist hcur
    by_cases hb : bal < 0.05
    · rw [simLoop_exit _ _ _ _ _ _ _ _ _ hb] at h
      exact (pair_some_inj h) ▸ hhist
    · by_cases hA : k * x0 ≤ total_bet + min av_stake (bal - pymod bal 0.05)
      · rw [simLoop_ruleA _ _ _ _ _ hb hA] at h
        rw [← pair_some_inj h]
        have hbc : isCents bal := by
          rcases hcur with hc | ⟨hbx, htb⟩
          · exact hc
          · rw [htb] at hA
            exact isCents_of_first_ruleA hx hk hb hbx hA
        exact mem_concat_prop hhist hbc
      · rw [simLoop_sample _ _ _ _ _ hb hA] at h
        by_cases hbust :
            round2 (bal + min av_stake (bal - pymod bal 0.05) * (stream pos - 1)) ≤ 0
        · rw [if_pos hbust] at h
          rw [← pair_some_inj h]
          exact mem_concat_prop hhist (isCents_round2 _)
        · rw [if_neg hbust] at h
          exact ih _ _ _ _ _ _ _ h
            (mem_concat_prop hhist (isCents_round2 _))
            (Or.inl (isCents_round2 _))

/-- C7: for every valid config and every run, the balance field of every
StepRecord in the returned sequence is a whole number of cents (rounded to
2 decimal places), including the initial record and a final record
appended when stopping rule A fires. -/
theorem claim_C7 (start_bal WR av_stake : ℚ)
    (hv : ValidConfig start_bal WR av_stake) (gen : ℤ → ℕ → ℚ)
    (g : NpRandom) (seed : Option ℤ) (fuel : ℕ) (l : List StepRec)
    (h : (wagering_sim_with_history_bal gen g start_bal WR av_stake
        seed fuel).1 = some l) :
    ∀ r ∈ l, isCents r.balance := by
  have hx : 0 < start_bal := hv.1
  have hk : 1 ≤ WR := hv.2.2.1
  have hinit : ∀ r ∈ ([⟨0, round2 start_bal, 0⟩] : List StepRec),
      isCents r.balance := by
    intro r hr
    have hrr : r = ⟨0, round2 start_bal, 0⟩ := by simpa using hr
    rw [hrr]
    exact isCents_round2 _
  cases seed with
  | none =>
    have hsim : (simLoop WR start_bal av_stake g.stream fuel start_bal 0 0
        g.pos [⟨0, round2 start_bal, 0⟩]).1 = some l := h
    have hfull := fst_eq_pair _ _ hsim
    exact simLoop_balance_cents WR start_bal av_stake g.stream hx hk
      fuel start_bal 0 0 g.pos _ l _ hfull hinit (Or.inr ⟨rfl, rfl⟩)
  | some s =>
    have hsim : (simLoop WR start_bal av_stake (gen s) fuel start_bal 0 0
        0 [⟨0, round2 start_bal, 0⟩]).1 = some l := h
    have hfull := fst_eq_pair _ _ hsim
    exact simLoop_balance_cents WR start_bal av_stake (gen s) hx hk
      fuel start_bal 0 0 0 _ l _ hfull hinit (Or.inr ⟨rfl, rfl⟩)

theorem claim_C7_witness : ValidConfig 1 1 1 ∧ isCents (1 : ℚ) :=
  ⟨⟨by norm_num, ⟨100, by norm_num⟩, le_refl 1, by norm_num⟩,
   claim_C7 1 1 1 ⟨by norm_num, ⟨100, by norm_num⟩, le_refl 1, by norm_num⟩
     (fun _ _ => 0) ⟨fun _ => 0, 0⟩ none (0 + 1) [⟨0, 1, 0⟩, ⟨1, 1, 1⟩]
     (by simp only [wagering_sim_with_history_bal, simLoop_unit_run])
     ⟨0, 1, 0⟩ (by simp)⟩

theorem outcomeSupport_nonneg : ∀ x ∈ outcomeSupport, (0 : ℚ) ≤ x := by
  intro x hx
  fin_cases hx <;> norm_num

/-- Helper for C9: one balance update keeps the balance non-negative when
the sampled outcome multiplier is non-negative (the worst outcome loses
exactly the stake). -/
theorem update_nonneg {av_stake bal xt : ℚ} (hav : 0 < av_stake)
    (hb : ¬ bal < 0.05) (hxt : 0 ≤ xt) :
    0 ≤ round2 (bal + min av_stake (bal - pymod bal 0.05) * (xt - 1)) := by
  have hstake : 0 < min av_stake (bal - pymod bal 0.05) :=
    stake_pos hav (not_lt.mp hb)
  have hle : min av_stake (bal - pymod bal 0.05) ≤ bal := stake_le_bal
  have hmul : 0 ≤ min av_stake (bal - pymod bal 0.05) * xt :=
    mul_nonneg hstake.le hxt
  have hring : min av_stake (bal - pymod bal 0.05) * (xt - 1)
      = min av_stake (bal - pymod bal 0.05) * xt
        - min av_stake (bal - pymod bal 0.05) := by ring
  apply round2_nonneg
  rw [hring]
  linarith

theorem simLoop_balance_nonneg (k x0 av_stake : ℚ) (stream : ℕ → ℚ)
    (hav : 0 < av_stake) (hsupp : ∀ i, stream i ∈ outcomeSupport) :
    ∀ (fuel : ℕ) (bal total_bet : ℚ) (no_bets pos : ℕ)
      (hist l : List StepRec) (pos' : ℕ),
      simLoop k x0 av_stake stream fuel bal total_bet no_bets pos hist
        = (some l, pos') →
      0 ≤ bal →
      (∀ r ∈ hist, 0 ≤ r.balance) →
      ∀ r ∈ l, 0 ≤ r.balance := by
  intro fuel
  induction fuel with
  | zero =>
    intro bal total_bet no_bets pos hist l pos' h _ hhist
    by_cases hb : bal < 0.05
    · rw [simLoop_exit _ _ _ _ _ _ _ _ _ hb] at h
      exact (pair_some_inj h) ▸ hhist
    · rw [simLoop.eq_def, if_neg hb] at h
      simp at h
  | succ fuel ih =>
    intro bal total_bet no_bets pos hist l pos' h hbal hhist
    by_cases hb : bal < 0.05
    · rw [simLoop_exit _ _ _ _ _ _ _ _ _ hb] at h
      exact (pair_some_inj h) ▸ hhist
    · by_cases hA : k * x0 ≤ total_bet + min av_stake (bal - pymod bal 0.05)
      · rw [simLoop_ruleA _ _ _ _ _ hb hA] at h
        rw [← pair_some_inj h]
        exact mem_concat_prop hhist hbal
      · rw [simLoop_sample _ _ _ _ _ hb hA] at h
        have hxt : 0 ≤ stream pos := outcomeSupport_nonneg _ (hsupp pos)
        have hnew := update_nonneg hav hb hxt
        by_cases hbust :
            round2 (bal + min av_stake (bal - pymod bal 0.05) * (stream pos - 1)) ≤ 0
        · rw [if_pos hbust] at h
          rw [← pair_some_inj h]
          exact mem_concat_prop hhist hnew
        · rw [if_neg hbust] at h
          exact ih _ _ _ _ _ _ _ h hnew (mem_concat_prop hhist hnew)

/-- C9: for every valid config and every run whose sampled outcomes come
from the game's support {0, 1, 3, 11}, the balance recorded at every step
is non-negative (the stake never exceeds the balance and the worst outcome
multiplier is 0), so a bust record carries balance exactly 0. -/
theorem claim_C9 (start_bal WR av_stake : ℚ)
    (hv : ValidConfig start_bal WR av_stake) (gen : ℤ → ℕ → ℚ)
    (g : NpRandom) (hgen : ∀ s i, gen s i ∈ outcomeSupport)
    (hg : ∀ i, g.stream i ∈ outcomeSupport) (seed : Option ℤ) (fuel : ℕ)
    (l : List StepRec)
    (h : (wagering_sim_with_history_bal gen g start_bal WR av_stake
        seed fuel).1 = some l) :
    (∀ r ∈ l, 0 ≤ r.balance) ∧ (∀ r ∈ l, r.balance ≤ 0 → r.balance = 0) := by
  have hav : 0 < av_stake := hv.2.2.2
  have hinit : ∀ r ∈ ([⟨0, round2 start_bal, 0⟩] : List StepRec),
      0 ≤ r.balance := by
    intro r hr
    have hrr : r = ⟨0, round2 start_bal, 0⟩ := by simpa using hr
    rw [hrr]
    exact round2_nonneg hv.1.le
  have hpos : ∀ r ∈ l, 0 ≤ r.balance := by
    cases seed with
    | none =>
      have hsim : (simLoop WR start_bal av_stake g.stream fuel start_bal 0 0
          g.pos [⟨0, round2 start_bal, 0⟩]).1 = some l := h
      have hfull := fst_eq_pair _ _ hsim
      exact simLoop_balance_nonneg WR start_bal av_stake g.stream hav hg
        fuel start_bal 0 0 g.pos _ l _ hfull hv.1.le hinit
    | some s =>
      have hsim : (simLoop WR start_bal av_stake (gen s) fuel start_bal 0 0
          0 [⟨0, round2 start_bal, 0⟩]).1 = some l := h
      have hfull := fst_eq_pair _ _ hsim
      exact simLoop_balance_nonneg WR start_bal av_stake (gen s) hav
        (hgen s) fuel start_bal 0 0 0 _ l _ hfull hv.1.le hinit
  exact ⟨hpos, fun r hr hle => le_antisymm hle (hpos r hr)⟩

theorem claim_C9_witness :
    ValidConfig 1 1 1 ∧
    ((∀ r ∈ [(⟨0, 1, 0⟩ : StepRec), ⟨1, 1, 1⟩], 0 ≤ r.balance) ∧
     (∀ r ∈ [(⟨0, 1, 0⟩ : StepRec), ⟨1, 1, 1⟩], r.balance ≤ 0 → r.balance = 0)) :=
  ⟨⟨by norm_num, ⟨100, by norm_num⟩, le_refl 1, by norm_num⟩,
   claim_C9 1 1 1 ⟨by norm_num, ⟨100, by norm_num⟩, le_refl 1, by norm_num⟩
     (fun _ _ => 0) ⟨fun _ => 0, 0⟩
     (by intro s i; simp [outcomeSupport])
     (by intro i; simp [outcomeSupport])
     none (0 + 1) [⟨0, 1, 0⟩, ⟨1, 1, 1⟩]
     (by simp only [wagering_sim_with_history_bal, simLoop_unit_run])⟩

/-- Helper for C4: the loop returns (does not run out of fuel) whenever the
fuel exceeds the number of minimum-stake steps still needed to reach the
wagering target. -/
theorem simLoop_term (k x0 av_stake : ℚ) (stream : ℕ → ℚ)
    (hav : 0 < av_stake) :
    ∀ (fuel : ℕ) (bal total_bet : ℚ) (no_bets pos : ℕ) (hist : List StepRec),
      (⌈(k * x0 - total_bet) / min av_stake 0.05⌉).toNat + 1 ≤ fuel →
      ∃ l, (simLoop k x0 av_stake stream fuel bal total_bet no_bets pos
        hist).1 = some l := by
  have hs : (0 : ℚ) < min av_stake 0.05 := lt_min hav (by norm_num)
  intro fuel
  induction fuel with
  | zero =>
    intro bal total_bet no_bets pos hist hfuel
    exact absurd hfuel (by omega)
  | succ fuel ih =>
    intro bal total_bet no_bets pos hist hfuel
    by_cases hb : bal < 0.05
    · exact ⟨hist, by rw [simLoop_exit _ _ _ _ _ _ _ _ _ hb]⟩
    · by_cases hA : k * x0 ≤ total_bet + min av_stake (bal - pymod bal 0.05)
      · exact ⟨_, by rw [simLoop_ruleA _ _ _ _ _ hb hA]⟩
      · by_cases hbust :
            round2 (bal + min av_stake (bal - pymod bal 0.05) * (stream pos - 1)) ≤ 0
        · exact ⟨_, by rw [simLoop_sample _ _ _ _ _ hb hA, if_pos hbust]⟩
        · have hstake : min av_stake 0.05 ≤ min av_stake (bal - pymod bal 0.05) :=
            min_stake_le_stake (not_lt.mp hb)
          have hlt : total_bet + min av_stake (bal - pymod bal 0.05) < k * x0 :=
            not_le.mp hA
          have hB1 : 1 ≤ ⌈(k * x0 - (total_bet + min av_stake (bal - pymod bal 0.05)))
              / min av_stake 0.05⌉ := by
            have hpos0 : (0 : ℚ)
                < k * x0 - (total_bet + min av_stake (bal - pymod bal 0.05)) := by
              linarith
            have := Int.ceil_pos.mpr (div_pos hpos0 hs)
            omega
          have hBA : ⌈(k * x0 - (total_bet + min av_stake (bal - pymod bal 0.05)))
                / min av_stake 0.05⌉
              ≤ ⌈(k * x0 - total_bet) / min av_stake 0.05⌉ - 1 := by
            have h1 : k * x0 - (total_bet + min av_stake (bal - pymod bal 0.05))
                ≤ (k * x0 - total_bet) - min av_stake 0.05 := by linarith
            have h2 : ((k * x0 - total_bet) - min av_stake 0.05) / min av_stake 0.05
                = (k * x0 - total_bet) / min av_stake 0.05 - ((1 : ℤ) : ℚ) := by
              push_cast
              field_simp
            have h3 : (k * x0 - (total_bet + min av_stake (bal - pymod bal 0.05)))
                  / min av_stake 0.05
                ≤ (k * x0 - total_bet) / min av_stake 0.05 - ((1 : ℤ) : ℚ) := by
              rw [← h2]
              exact (div_le_div_iff_of_pos_right hs).mpr h1
            calc ⌈(k * x0 - (total_bet + min av_stake (bal - pymod bal 0.05)))
                  / min av_stake 0.05⌉
                ≤ ⌈(k * x0 - total_bet) / min av_stake 0.05 - ((1 : ℤ) : ℚ)⌉ :=
                  Int.ceil_mono h3
              _ = ⌈(k * x0 - total_bet) / min av_stake 0.05⌉ - 1 :=
                  Int.ceil_sub_int _ 1
          have harith : (⌈(k * x0 - (total_bet + min av_stake (bal - pymod bal 0.05)))
              / min av_stake 0.05⌉).toNat + 1 ≤ fuel := by omega
          obtain ⟨l, hl⟩ := ih
            (round2 (bal + min av_stake (bal - pymod bal 0.05) * (stream pos - 1)))
            (total_bet + min av_stake (bal - pymod bal 0.05)) (no_bets + 1) (pos + 1)
            (hist ++ [⟨no_bets + 1,
              round2 (bal + min av_stake (bal - pymod bal 0.05) * (stream pos - 1)),
              total_bet + min av_stake (bal - pymod bal 0.05)⟩]) harith
          refine ⟨l, ?_⟩
          rw [simLoop_sample _ _ _ _ _ hb hA, if_neg hbust]
          exact hl

/-- C4: for every valid config, the run terminates within the bound
`maxIters` = ceil(wageringMultiplier × startingBalance / min-possible-stake)
plus a small constant, and returns a non-empty sequence whose first record
is exactly the initial state (stepIndex 0, balance = startingBalance,
cumulativeStaked = 0). -/
theorem claim_C4 (start_bal WR av_stake : ℚ)
    (hv : ValidConfig start_bal WR av_stake) (gen : ℤ → ℕ → ℚ)
    (g : NpRandom) (seed : Option ℤ) :
    ∃ l, (wagering_sim_with_history_bal gen g start_bal WR av_stake seed
        (maxIters start_bal WR av_stake)).1 = some l
      ∧ l.head? = some ⟨0, start_bal, 0⟩ ∧ l ≠ [] := by
  have hav : 0 < av_stake := hv.2.2.2
  have hfuel : (⌈(WR * start_bal - 0) / min av_stake 0.05⌉).toNat + 1
      ≤ maxIters start_bal WR av_stake := by
    rw [sub_zero]
    unfold maxIters
    omega
  have hround : round2 start_bal = start_bal := round2_of_isCents hv.2.1
  cases seed with
  | none =>
    obtain ⟨l, hl⟩ := simLoop_term WR start_bal av_stake g.stream hav
      (maxIters start_bal WR av_stake) start_bal 0 0 g.pos
      [⟨0, round2 start_bal, 0⟩] hfuel
    obtain ⟨t, ht⟩ := simLoop_append WR start_bal av_stake g.stream
      (maxIters start_bal WR av_stake) start_bal 0 0 g.pos
      [⟨0, round2 start_bal, 0⟩] l _ (fst_eq_pair _ _ hl)
    refine ⟨l, hl, ?_, ?_⟩
    · rw [ht, hround]
      rfl
    · rw [ht]
      simp
  | some s =>
    obtain ⟨l, hl⟩ := simLoop_term WR start_bal av_stake (gen s) hav
      (maxIters start_bal WR av_stake) start_bal 0 0 0
      [⟨0, round2 start_bal, 0⟩] hfuel
    obtain ⟨t, ht⟩ := simLoop_append WR start_bal av_stake (gen s)
      (maxIters start_bal WR av_stake) start_bal 0 0 0
      [⟨0, round2 start_bal, 0⟩] l _ (fst_eq_pair _ _ hl)
    refine ⟨l, hl, ?_, ?_⟩
    · rw [ht, hround]
      rfl
    · rw [ht]
      simp

theorem claim_C4_witness :
    ValidConfig 1 1 1 ∧
    ∃ l, (wagering_sim_with_history_bal (fun _ _ => 0) ⟨fun _ => 0, 0⟩
        1 1 1 (some 0) (maxIters 1 1 1)).1 = some l
      ∧ l.head? = some ⟨0, 1, 0⟩ ∧ l ≠ [] :=
  ⟨⟨by norm_num, ⟨100, by norm_num⟩, le_refl 1, by norm_num⟩,
   claim_C4 1 1 1 ⟨by norm_num, ⟨100, by norm_num⟩, le_refl 1, by norm_num⟩
     (fun _ _ => 0) ⟨fun _ => 0, 0⟩ (some 0)⟩

theorem claim_C1_witness :
    ValidConfig 1 1 1 ∧ (0.05 : ℚ) ≤ 1 ∧
    (1 : ℚ) * 1 ≤ 0 + min 1 (1 - pymod 1 0.05) ∧
    simLoop 1 1 1 (fun _ => 0) (0 + 1) 1 0 0 0 []
      = (some ([] ++ [⟨0 + 1, 1, 0 + min 1 (1 - pymod 1 0.05)⟩]), 0) :=
  ⟨⟨by norm_num, ⟨100, by norm_num⟩, le_refl 1, by norm_num⟩,
   by norm_num,
   by rw [pymod_one_gran]; norm_num,
   claim_C1 1 1 1 ⟨by norm_num, ⟨100, by norm_num⟩, le_refl 1, by norm_num⟩
     (fun _ => 0) 0 1 0 0 0 [] (by norm_num)
     (by rw [pymod_one_gran]; norm_num)⟩

end WagerSim
